import Mathlib

/-!
Verification development for the wave function collapse solver
(src/grid.rs, src/tile.rs, src/superstate.rs, src/wave.rs).

The Rust source is embedded shallowly:
  - machine integers are Nat; usize subtraction is truncated (the Rust code
    panics on underflow in debug builds, which we record where relevant);
  - the f64 field rollback_penalty only ever holds multiples of 0.5, so it is
    represented exactly by its number of halves (a Nat); the Rust expression
    ceil(penalty) becomes (halves + 1) / 2;
  - panicking operations (unwrap, expect) become Option, with none for panic;
  - the external xorshift generator of the rand crate is modelled by an
    abstract deterministic stream rngNext over a Nat state; range sampling
    (choose, choose_weighted) is modelled by one draw reduced modulo the size,
    which preserves determinism and totality, the only properties the claims
    depend on;
  - loops without a structural measure (flood fill, the queue drain of tick,
    the rollback propagation recursion) take an explicit fuel argument; fuel
    exhaustion is none, like a panic.
-/

namespace WFC

/-- The four orthogonal directions, in the declaration order of the Rust enum
(Up, Right, Down, Left), which is also the iteration order of EnumMap. -/
inductive Direction : Type where
  | up : Direction
  | right : Direction
  | down : Direction
  | left : Direction
deriving DecidableEq

/-- Direction.invert from grid.rs. -/
def Direction.invert : Direction → Direction
  | Direction.up => Direction.down
  | Direction.down => Direction.up
  | Direction.left => Direction.right
  | Direction.right => Direction.left

/-- All directions in EnumMap iteration order. -/
def directions : List Direction :=
  [Direction.up, Direction.right, Direction.down, Direction.left]

/-- A four way map indexed by Direction (EnumMap of grid.rs). -/
structure Nbrs (α : Type) : Type where
  up : α
  right : α
  down : α
  left : α
deriving DecidableEq

def Nbrs.get {α : Type} (n : Nbrs α) : Direction → α
  | Direction.up => n.up
  | Direction.right => n.right
  | Direction.down => n.down
  | Direction.left => n.left

def Nbrs.setD {α : Type} (n : Nbrs α) : Direction → α → Nbrs α
  | Direction.up, v => { n with up := v }
  | Direction.right, v => { n with right := v }
  | Direction.down, v => { n with down := v }
  | Direction.left, v => { n with left := v }

def Nbrs.map {α β : Type} (f : α → β) (n : Nbrs α) : Nbrs β :=
  ⟨f n.up, f n.right, f n.down, f n.left⟩

/-- The empty pending entry: Neighbors::default() with empty id sets. -/
def Nbrs.emptyIds : Nbrs (List Nat) := ⟨[], [], [], []⟩

/-- A tile prototype (tile.rs).  The identifier is the u64 id, the weight a
usize, and neighbors the per direction lists of permitted ids. -/
structure Tile : Type where
  id : Nat
  weight : Nat
  neighbors : Nbrs (List Nat)
deriving DecidableEq

/-- Tile::test from tile.rs: for every direction whose constraint list is non
empty, some id of that list must occur in the own neighbour list of the tile;
empty constraint lists impose no constraint. -/
def Tile.test (t : Tile) (nbrs : Nbrs (List Nat)) : Bool :=
  directions.all fun d =>
    (nbrs.get d).isEmpty || (nbrs.get d).any fun i => (t.neighbors.get d).contains i

/-- A cell superposition (superstate.rs). -/
structure SuperState : Type where
  possible : List Tile
  base_entropy : Nat
  entropy : Nat
deriving DecidableEq

/-- SuperState::new. -/
def SuperState.new (possible : List Tile) : SuperState :=
  ⟨possible, possible.length, possible.length⟩

/-- SuperState::collapsing. -/
def SuperState.collapsing (s : SuperState) : Bool :=
  s.base_entropy != s.entropy

/-- SuperState::collapsed. -/
def SuperState.collapsedTile (s : SuperState) : Option Tile :=
  match s.possible with
  | [t] => some t
  | _ => none

/-- SuperState::tick: when entropy exceeds 1, retain the prototypes passing
Tile::test against the constraint map and refresh the cached entropy. -/
def SuperState.tick (s : SuperState) (nbrs : Nbrs (List Nat)) : SuperState :=
  if 1 < s.entropy then
    let p := s.possible.filter fun t => t.test nbrs
    ⟨p, s.base_entropy, p.length⟩
  else s

/-- Stable insertion of a tile into a list sorted by id (models the stable
Vec::sort_by_key in SuperState::collapse). -/
def insertById (t : Tile) : List Tile → List Tile
  | [] => [t]
  | u :: us => if t.id ≤ u.id then t :: u :: us else u :: insertById t us

/-- Stable sort by tile id. -/
def sortById (l : List Tile) : List Tile :=
  l.foldr insertById []

/-- Cumulative weighted pick: the element containing offset k of the
concatenated weight intervals. -/
def pickWeighted : List Tile → Nat → Option Tile
  | [], _ => none
  | t :: rest, k => if k < t.weight then some t else pickWeighted rest (k - t.weight)

/-- The modelled pseudo random stream: one step of a mixed congruential
generator over a 48 bit state; the output is the upper 32 bits.  It stands in
for the external xorshift generator, of which the claims only use determinism. -/
def rngNext (s : Nat) : Nat × Nat :=
  let s2 := (s * 25214903917 + 11) % (2 ^ 48)
  (s2 / 2 ^ 16, s2)

/-- choose_weighted of the rand crate, as used by SuperState::collapse: fails
(Err, unwrapped to a panic) exactly when the total weight is zero, which
subsumes the empty collection; otherwise one draw selects an element with
probability proportional to its weight. -/
def chooseWeighted (l : List Tile) (r : Nat) : Option (Tile × Nat) :=
  if (l.map Tile.weight).sum = 0 then none
  else
    (pickWeighted l ((rngNext r).1 % (l.map Tile.weight).sum)).map fun t =>
      (t, (rngNext r).2)

/-- SuperState::collapse: when more than one prototype remains, sort by id and
reduce to a single weighted choice, refreshing the cached entropy; otherwise do
nothing and consume no randomness. -/
def SuperState.collapse (s : SuperState) (r : Nat) : Option (SuperState × Nat) :=
  if 1 < s.possible.length then
    (chooseWeighted (sortById s.possible) r).map fun p =>
      (⟨[p.1], s.base_entropy, 1⟩, p.2)
  else some (s, r)

/-- Position on the grid. -/
abbrev Pos : Type := Nat × Nat

/-- Row major grid (grid.rs). -/
structure Grid (α : Type) : Type where
  width : Nat
  height : Nat
  data : List α
deriving DecidableEq

def Grid.size {α : Type} (g : Grid α) : Nat := g.width * g.height

/-- Grid::get: only the linear index is checked, exactly as in the source
(data.get(x + y * width)). -/
def Grid.get {α : Type} (g : Grid α) (x y : Nat) : Option α :=
  g.data.get? (x + y * g.width)

/-- Grid::set: coordinate checked write. -/
def Grid.set {α : Type} (g : Grid α) (x y : Nat) (v : α) : Option (Grid α) :=
  if g.width ≤ x ∨ g.height ≤ y then none
  else some { g with data := g.data.set (x + y * g.width) v }

/-- A write through Grid::get_mut: like the read, only the linear index is
checked. -/
def Grid.setIdx {α : Type} (g : Grid α) (x y : Nat) (v : α) : Option (Grid α) :=
  if x + y * g.width < g.data.length then
    some { g with data := g.data.set (x + y * g.width) v }
  else none

/-- Grid::replace: index checked swap returning the previous value. -/
def Grid.replace {α : Type} (g : Grid α) (x y : Nat) (v : α) :
    Option (α × Grid α) :=
  match g.data.get? (x + y * g.width) with
  | none => none
  | some old => some (old, { g with data := g.data.set (x + y * g.width) v })

/-- Grid::get_neighbor_position. -/
def Grid.nbrPos {α : Type} (g : Grid α) (x y : Nat) : Direction → Option Pos
  | Direction.up => if y = 0 then none else some (x, y - 1)
  | Direction.down => if g.height ≤ y + 1 then none else some (x, y + 1)
  | Direction.left => if x = 0 then none else some (x - 1, y)
  | Direction.right => if g.width ≤ x + 1 then none else some (x + 1, y)

/-- Grid::get_neighbor_positions. -/
def Grid.nbrPositions {α : Type} (g : Grid α) (x y : Nat) : Nbrs (Option Pos) :=
  ⟨g.nbrPos x y Direction.up, g.nbrPos x y Direction.right,
   g.nbrPos x y Direction.down, g.nbrPos x y Direction.left⟩

/-- Grid::get_neighbors. -/
def Grid.getNeighbors {α : Type} (g : Grid α) (x y : Nat) : Nbrs (Option α) :=
  (g.nbrPositions x y).map fun p =>
    match p with
    | none => none
    | some q => g.get q.1 q.2

/-- The positions of a grid in row major iteration order. -/
def Grid.positions {α : Type} (g : Grid α) : List Pos :=
  (List.range (g.width * g.height)).map fun i => (i % g.width, i / g.width)

/-- Grid::reset_to_default for the pending grid (every entry becomes None). -/
def Grid.resetPending (g : Grid (Option (Nbrs (List Nat)))) :
    Grid (Option (Nbrs (List Nat))) :=
  { g with data := g.data.map fun _ => none }

/-- The tag of a collapse stack entry (CollapseReason of wave.rs). -/
inductive Reason : Type where
  | implicitR : Reason
  | explicitR : Reason
deriving DecidableEq

/-- The solver state (Wave of wave.rs).  The stack list models the VecDeque
with its head at the front; the collapsed list models the Vec with its head at
the TOP of the stack (the most recently pushed entry). -/
structure Wave : Type where
  grid : Grid SuperState
  grid_base : Grid SuperState
  stack : List Pos
  data : Grid (Option (Nbrs (List Nat)))
  collapsed : List (Pos × Reason)
  rng : Nat
  last_rollback : Nat
  rollback_penalty : Nat
deriving DecidableEq

/-- Wave::new: remember the base grid, start with an all None pending grid, an
empty queue, an empty collapse stack, the seeded generator, and zero backoff
state (the f64 0.0 is zero halves). -/
def Wave.new (g : Grid SuperState) (seed : Nat) : Wave :=
  { grid := g
    grid_base := g
    stack := []
    data := ⟨g.width, g.height, List.replicate (g.width * g.height) none⟩
    collapsed := []
    rng := seed
    last_rollback := 0
    rollback_penalty := 0 }

/-- Wave::remaining.  In Rust this is usize subtraction, which panics in debug
builds when collapsed.len() exceeds grid.size(); here the subtraction
truncates, which the theorems about claim C9 make explicit. -/
def Wave.remaining (w : Wave) : Nat :=
  w.grid.size - w.collapsed.length

/-- Wave::done. -/
def Wave.done (w : Wave) : Bool :=
  w.remaining == 0

/-- The ids of the prototypes still possible at a cell. -/
def possibleIds (s : SuperState) : List Nat :=
  s.possible.map Tile.id

/-- The map_or(1, entropy) read used by maybe_collapse. -/
def cellEntropy (w : Wave) (p : Pos) : Nat :=
  match w.grid.get p.1 p.2 with
  | none => 1
  | some c => c.entropy

/-- The constraint map first built by tick_cell when no pending entry exists:
per direction the ids possible at the neighbour, or the empty list at a grid
edge. -/
def computeInitNbrs (w : Wave) (x y : Nat) : Nbrs (List Nat) :=
  (w.grid.getNeighbors x y).map fun c =>
    match c with
    | none => []
    | some n => possibleIds n

/-- One neighbour update of Wave::mark: write the id list of the marked cell
into the inverted direction slot of the pending entry of the neighbour,
creating the entry and enqueueing the neighbour when it had none. -/
def markStep (states : List Nat) (d : Direction) (p : Pos) (w : Wave) :
    Option Wave :=
  match w.data.get p.1 p.2 with
  | none => none
  | some none =>
    match w.data.set p.1 p.2 (some (Nbrs.emptyIds.setD d.invert states)) with
    | none => none
    | some dg => some { w with data := dg, stack := w.stack ++ [p] }
  | some (some m) =>
    (w.data.setIdx p.1 p.2 (some (m.setD d.invert states))).map fun dg =>
      { w with data := dg }

def markGo (states : List Nat) : List (Direction × Pos) → Wave → Option Wave
  | [], w => some w
  | dp :: rest, w => (markStep states dp.1 dp.2 w).bind (markGo states rest)

/-- Wave::mark. -/
def mark (w : Wave) (cx cy : Nat) : Option Wave :=
  match w.grid.get cx cy with
  | none => none
  | some cell =>
    let states := possibleIds cell
    let nps := directions.filterMap fun d =>
      ((w.data.nbrPos cx cy d).map fun p => (d, p))
    markGo states nps w

/-- Wave::collapse: collapse the superstate with the generator, push an
Explicit entry, and mark the neighbours. -/
def collapseCell (w : Wave) (x y : Nat) : Option Wave :=
  match w.grid.get x y with
  | none => none
  | some cell =>
    match cell.collapse w.rng with
    | none => none
    | some cr =>
      match w.grid.setIdx x y cr.1 with
      | none => none
      | some g2 =>
        let w2 : Wave :=
          { w with
            grid := g2
            rng := cr.2
            collapsed := ((x, y), Reason.explicitR) :: w.collapsed }
        mark w2 x y

/-- The boolean mask of collapsable_areas: true means entropy one, already
collapsed.  The unwrap of the source cannot fail on a well formed grid; a
missing cell is treated as collapsed, which agrees with the source whenever
the backing vector has width times height entries. -/
def areaMask (w : Wave) : Grid Bool :=
  ⟨w.grid.width, w.grid.height,
   (Grid.positions w.grid).map fun p =>
     match w.grid.get p.1 p.2 with
     | none => true
     | some c => c.entropy == 1⟩

/-- The flood fill loop of collapsable_areas: pop a position, skip it when out
of range or already visited, otherwise visit it, push its four neighbours and
append it to the area. -/
def floodLoop : Nat → Grid Bool → List Pos → List Pos → Grid Bool × List Pos
  | 0, board, _, area => (board, area)
  | Nat.succ fuel, board, stk, area =>
    match stk with
    | [] => (board, area)
    | p :: rest =>
      match board.get p.1 p.2 with
      | none => floodLoop fuel board rest area
      | some true => floodLoop fuel board rest area
      | some false =>
        match board.set p.1 p.2 true with
        | none => floodLoop fuel board rest area
        | some b2 =>
          let pushed := (directions.filterMap fun d => b2.nbrPos p.1 p.2 d)
          floodLoop fuel b2 (pushed.reverse ++ rest) (area ++ [p])

/-- Stable insertion by list length (Vec::sort_by_key(Vec::len) is stable). -/
def insertByLen (a : List Pos) : List (List Pos) → List (List Pos)
  | [] => [a]
  | b :: bs => if a.length ≤ b.length then a :: b :: bs else b :: insertByLen a bs

def sortByLen (l : List (List Pos)) : List (List Pos) :=
  l.foldr insertByLen []

/-- The column major scan of collapsable_areas (outer loop over x, inner over
y), flood filling a fresh area at every unvisited cell. -/
def areasScan (w : Wave) : List Pos → Grid Bool → List (List Pos) →
    List (List Pos)
  | [], _, out => out
  | p :: rest, board, out =>
    match board.get p.1 p.2 with
    | none => areasScan w rest board out
    | some true => areasScan w rest board out
    | some false =>
      let r := floodLoop (4 * board.data.length + 8) board [p] []
      areasScan w rest r.1 (out ++ [r.2])

/-- The column major scan order of collapsable_areas. -/
def colMajor (w : Wave) : List Pos :=
  (List.range w.grid.width).flatMap fun bx =>
    (List.range w.grid.height).map fun by2 => (bx, by2)

/-- Wave::collapsable_areas. -/
def collapsableAreas (w : Wave) : List (List Pos) :=
  sortByLen (areasScan w (colMajor w) (areaMask w) [])

/-- The single pass candidate scan of maybe_collapse: track the minimum
entropy above one and the cells achieving it. -/
def scanCands (w : Wave) : List Pos → Nat → List Pos → Nat × List Pos
  | [], minE, cands => (minE, cands)
  | p :: rest, minE, cands =>
    let e := cellEntropy w p
    if e ≤ 1 then scanCands w rest minE cands
    else if e < minE then scanCands w rest e [p]
    else if e = minE then scanCands w rest minE (cands ++ [p])
    else scanCands w rest minE cands

def usizeMax : Nat := 2 ^ 64 - 1

/-- The body of maybe_collapse once the first area has been selected: scan it
for the minimum entropy above one and collapse one random candidate. -/
def maybeCollapseScan (w : Wave) (first : List Pos) : Option (Option Pos × Wave) :=
  match scanCands w first usizeMax [] with
  | (_, []) => some (none, w)
  | (_, c :: cs) =>
    match (c :: cs).get? ((rngNext w.rng).1 % (c :: cs).length) with
    | none => none
    | some p =>
      (collapseCell { w with rng := (rngNext w.rng).2 } p.1 p.2).map fun w2 =>
        (some p, w2)

/-- Wave::maybe_collapse: take the first (smallest) collapsable area, scan it
for the minimum entropy above one, and collapse one random candidate. -/
def maybeCollapse (w : Wave) : Option (Option Pos × Wave) :=
  match (collapsableAreas w).head? with
  | none => some (none, w)
  | some first => maybeCollapseScan w first

/-- The bottom based Vec index of the topmost Explicit entry for a position
(Iterator::rposition over the collapse stack).  The collapsed list stores the
top at its head, so the first match from the head has the largest Vec index. -/
def explicitIdx (collapsed : List (Pos × Reason)) (p : Pos) : Option Nat :=
  (collapsed.findIdx? fun e => e.1 = p ∧ e.2 = Reason.explicitR).map fun j =>
    collapsed.length - 1 - j

/-- The in range positions of the square ring scan of analyze_contradiction at
a given radius (the full square without the centre). -/
def ringPositions (w : Wave) (cx cy : Nat) (r : Nat) : List Pos :=
  let ds : List Int := (List.range (2 * r + 1)).map fun i => (i : Int) - (r : Int)
  (ds.flatMap fun dx => ds.map fun dy => (dx, dy)).filterMap fun dd =>
    if dd.1 = 0 ∧ dd.2 = 0 then none
    else
      let nx := (cx : Int) + dd.1
      let ny := (cy : Int) + dd.2
      if 0 ≤ nx ∧ 0 ≤ ny ∧ nx < (w.grid.width : Int) ∧ ny < (w.grid.height : Int)
      then some (nx.toNat, ny.toNat)
      else none

/-- The best candidate at one radius: the position whose topmost Explicit
entry has the largest Vec index. -/
def bestAtRadius (w : Wave) (ps : List Pos) : Option (Pos × Nat) :=
  ps.foldl
    (fun best p =>
      match explicitIdx w.collapsed p with
      | none => best
      | some idx =>
        match best with
        | none => some (p, idx)
        | some b => if b.2 < idx then some (p, idx) else some b)
    none

/-- Wave::analyze_contradiction: expand the search radius from 1 to 3 until
some nearby position has an Explicit entry on the collapse stack. -/
def analyzeContradiction (w : Wave) (pos : Pos) : Option Pos :=
  match bestAtRadius w (ringPositions w pos.1 pos.2 1) with
  | some b => some b.1
  | none =>
    match bestAtRadius w (ringPositions w pos.1 pos.2 2) with
    | some b => some b.1
    | none =>
      match bestAtRadius w (ringPositions w pos.1 pos.2 3) with
      | some b => some b.1
      | none => none

/-- The count of Explicit entries from the top of the collapse stack through
the topmost Explicit occurrence of the culprit, or none when the culprit has
no Explicit entry. -/
def countToCulprit : List (Pos × Reason) → Pos → Nat → Option Nat
  | [], _, _ => none
  | e :: rest, culprit, acc =>
    match e.2 with
    | Reason.explicitR =>
      if e.1 = culprit then some (acc + 1) else countToCulprit rest culprit (acc + 1)
    | Reason.implicitR => countToCulprit rest culprit acc

/-- Wave::rollback_propegate: restore the cell from the base grid, enqueue it,
and recurse into every collapsing neighbour (other than the one the call came
from) whose entropy would change when its base state is ticked against the
current neighbourhood.  The recursion of the source has no structural measure,
so it takes fuel; exhaustion is none. -/
def rollbackPropegate : Nat → Wave → Nat → Nat → Option Direction → Option Wave
  | 0, _, _, _, _ => none
  | Nat.succ fuel, w, x, y, fromDir =>
    match w.grid_base.get x y with
    | none => none
    | some base =>
      match w.grid.set x y base with
      | none => none
      | some g2 =>
        let w := { w with grid := g2, stack := w.stack ++ [(x, y)] }
        let step := fun (ow : Option Wave) (d : Direction) =>
          ow.bind fun w =>
            if d = (match fromDir with | none => d.invert | some f => f) then some w
            else
              match w.grid.nbrPos x y d with
              | none => some w
              | some np =>
                match w.grid.get np.1 np.2 with
                | none => none
                | some cell =>
                  if cell.entropy = 1 ∨ cell.collapsing = false then some w
                  else
                    match w.grid_base.get np.1 np.2 with
                    | none => none
                    | some nbase =>
                      let sim := nbase.tick (computeInitNbrs w np.1 np.2)
                      if cell.entropy ≠ sim.entropy then
                        rollbackPropegate fuel w np.1 np.2 (some d.invert)
                      else some w
        directions.foldl step (some w)

/-- The pop loop of Wave::rollback, structurally recursing on the collapse
stack: pop an entry, propagate the revert, push the position onto the queue
front, and stop once the requested number of Explicit entries has been
undone. -/
def rollbackGo : Nat → Nat → Wave → Option Wave
  | 0, _, w => some w
  | Nat.succ fuel, count, w =>
    match w.collapsed with
    | [] => some w
    | e :: rest =>
      let w1 := { w with collapsed := rest }
      match rollbackPropegate (w1.grid.size + 2) w1 e.1.1 e.1.2 none with
      | none => none
      | some w2 =>
        let w3 := { w2 with stack := e.1 :: w2.stack }
        match e.2 with
        | Reason.explicitR =>
          if count - 1 = 0 then some w3 else rollbackGo fuel (count - 1) w3
        | Reason.implicitR => rollbackGo fuel count w3

/-- Wave::rollback: nothing to do for a zero count; otherwise clear every
pending entry and run the pop loop. -/
def rollback (w : Wave) (count : Nat) : Option Wave :=
  if count = 0 then some w
  else
    let w := { w with data := w.data.resetPending }
    rollbackGo (w.collapsed.length + 1) count w

/-- The queue rebuild shared by both contradiction paths: clear the queue,
then enqueue every grid position with a cleared pending entry. -/
def rebuildQueue (w : Wave) : Option Wave :=
  (Grid.positions w.grid).foldl
    (fun ow p =>
      ow.bind fun w =>
        match w.data.set p.1 p.2 none with
        | none => none
        | some dg => some { w with data := dg, stack := w.stack ++ [p] })
    (some { w with stack := [] })

/-- Wave::smart_rollback: update the backoff counters, then either reset the
whole grid from the base copy (when fewer Explicit entries exist than the
ceiling of the penalty) or roll back that many observations and rebuild the
queue. -/
def smartRollback (w : Wave) : Option Wave :=
  let cc := w.grid.size - w.remaining
  let w :=
    if cc ≤ w.last_rollback then
      { w with rollback_penalty := w.rollback_penalty + 1 }
    else
      { w with last_rollback := cc, rollback_penalty := 1 }
  let explicitCount : Nat :=
    (w.collapsed.filter fun e => decide (e.2 = Reason.explicitR)).length
  let ceilPen := (w.rollback_penalty + 1) / 2
  if explicitCount < ceilPen then
    let reset :=
      (Grid.positions w.grid_base).foldl
        (fun ow p =>
          ow.bind fun w =>
            match w.grid_base.get p.1 p.2 with
            | none => none
            | some c =>
              match w.grid.set p.1 p.2 c with
              | none => none
              | some g2 =>
                match w.data.set p.1 p.2 none with
                | none => none
                | some dg => some { w with grid := g2, data := dg })
        (some w)
    reset.map fun w =>
      { w with collapsed := [], stack := [], rollback_penalty := 1,
               last_rollback := 0 }
  else
    (rollback w ceilPen).bind rebuildQueue

/-- Wave::conflict_driven_rollback: roll back to the nearest recent Explicit
culprit when one exists, otherwise fall back to smart_rollback; in both cases
rebuild the queue afterwards. -/
def conflictDrivenRollback (w : Wave) (pos : Pos) : Option Wave :=
  (match analyzeContradiction w pos with
   | some culprit =>
     match countToCulprit w.collapsed culprit 0 with
     | some cnt => rollback w cnt
     | none => smartRollback w
   | none => smartRollback w).bind rebuildQueue

/-- The backoff counter update at the end of smart_rollback_with_contradiction,
applied to the progress measured on entry: on no new progress the penalty
grows by one half, otherwise it restarts at one half. -/
def backoffUpdate (cc : Nat) (w : Wave) : Wave :=
  if cc ≤ w.last_rollback then
    { w with rollback_penalty := w.rollback_penalty + 1 }
  else
    { w with last_rollback := cc, rollback_penalty := 1 }

/-- Wave::smart_rollback_with_contradiction: run the conflict driven rollback
first, then update the backoff counters using the progress measured on entry. -/
def smartRollbackWithContradiction (w : Wave) (pos : Pos) : Option Wave :=
  (conflictDrivenRollback w pos).map (backoffUpdate (w.grid.size - w.remaining))

/-- Wave::tick_cell.  Early return at entropy one; otherwise take (or first
build) the pending constraint map, tick the cell, push an Implicit entry when
it reaches entropy at most one, handle a contradiction at entropy zero, and
otherwise either collapse eagerly (when the cell is collapsing and no in grid
neighbour is) or mark the neighbours. -/
def tickCell (w : Wave) (x y : Nat) : Option Wave :=
  match w.grid.get x y with
  | none => none
  | some cell0 =>
    if cell0.entropy = 1 then some w
    else
      match w.data.get x y with
      | none => none
      | some pending0 =>
        let prep : Option (Wave × Nbrs (List Nat)) :=
          match pending0 with
          | some nb => some (w, nb)
          | none =>
            let nb := computeInitNbrs w x y
            match w.data.set x y (some nb) with
            | none => none
            | some dg => some ({ w with data := dg }, nb)
        match prep with
        | none => none
        | some wp =>
          let w := wp.1
          let nbrs := wp.2
          match w.data.set x y none with
          | none => none
          | some dg =>
            let w := { w with data := dg }
            let oldEntropy := cell0.entropy
            let cell := cell0.tick nbrs
            match w.grid.setIdx x y cell with
            | none => none
            | some g2 =>
              let w := { w with grid := g2 }
              let w :=
                if cell.entropy ≤ 1 then
                  { w with collapsed := ((x, y), Reason.implicitR) :: w.collapsed }
                else w
              if cell.entropy = 0 then
                smartRollbackWithContradiction w (x, y)
              else if oldEntropy ≠ cell.entropy then
                if cell.collapsing = true ∧
                    (directions.all fun d =>
                      match w.grid.getNeighbors x y |>.get d with
                      | none => true
                      | some v => !v.collapsing) then
                  collapseCell w x y
                else
                  mark w x y
              else some w

/-- Wave::tick_once: process one queued cell if any, else observe once. -/
def stepOnce (w : Wave) : Option (Option Pos × Wave) :=
  match w.stack with
  | [] => maybeCollapse w
  | p :: rest =>
    (tickCell { w with stack := rest } p.1 p.2).map fun w2 => (some p, w2)

/-- Iterated tick_once, collecting the returned positions in order. -/
def runN : Nat → Wave → Option (Wave × List (Option Pos))
  | 0, w => some (w, [])
  | Nat.succ n, w =>
    match stepOnce w with
    | none => none
    | some r =>
      match runN n r.2 with
      | none => none
      | some wr => some (wr.1, r.1 :: wr.2)

/-- The drain loop of Wave::tick with fuel: pop and process queued cells until
the queue is empty; when nothing was popped, observe once and return whether
the observation found nothing (worked or maybe_collapse().is_none()). -/
def tickLoop : Nat → Wave → Bool → Option (Bool × Wave)
  | 0, _, _ => none
  | Nat.succ fuel, w, worked =>
    match w.stack with
    | [] =>
      if worked then some (true, w)
      else (maybeCollapse w).map fun r => (r.1.isNone, r.2)
    | p :: rest =>
      (tickCell { w with stack := rest } p.1 p.2).bind fun w2 =>
        tickLoop fuel w2 true

/-! ### Claim side definitions -/

/-- The retention predicate in the words of the specification of
SuperState::tick: a prototype is kept when, for every direction whose
constraint set is non empty, its own neighbour set meets that constraint set. -/
def specRetain (t : Tile) (nbrs : Nbrs (List Nat)) : Bool :=
  directions.all fun d =>
    (nbrs.get d).isEmpty || (t.neighbors.get d).any fun i => (nbrs.get d).contains i

/-- The queue pending coupling stated by the specification, as a boolean over
the proper positions of the pending grid: a position carries a pending entry
exactly when it is queued. -/
def claimInvB (w : Wave) : Bool :=
  (Grid.positions w.data).all fun p =>
    (w.stack.contains p) ==
      (match w.data.get p.1 p.2 with
       | some (some _) => true
       | _ => false)

/-- The per position coupling read: a present pending entry requires queue
membership. -/
def piqAt (dataG : Grid (Option (Nbrs (List Nat)))) (stk : List Pos) (p : Pos) :
    Bool :=
  match dataG.get p.1 p.2 with
  | some (some _) => stk.contains p
  | _ => true

/-- The one directional half of the coupling that the code does maintain
outside contradiction handling: a pending entry implies queue membership. -/
def pendingImpliesQueued (w : Wave) : Bool :=
  (Grid.positions w.data).all (piqAt w.data w.stack)

/-- Modelled from the claim for C6 (specification section 4.5): on a
contradiction, first update the backoff state, then fully reset when the
Explicit count cannot absorb the penalty, and otherwise roll back by the
penalty and rebuild the queue.  The integer penalty of the claim corresponds
to the halves counter of the code under the doubling the claim itself
describes. -/
def claimedSmartRollback (w : Wave) (_pos : Pos) : Option Wave :=
  let progress := w.grid.size - w.remaining
  let w :=
    if progress ≤ w.last_rollback then
      { w with rollback_penalty := w.rollback_penalty + 1 }
    else
      { w with last_rollback := progress, rollback_penalty := 1 }
  let explicitCount : Nat :=
    (w.collapsed.filter fun e => decide (e.2 = Reason.explicitR)).length
  if explicitCount < w.rollback_penalty then
    some { w with grid := w.grid_base
                  data := w.data.resetPending
                  stack := []
                  collapsed := []
                  rollback_penalty := 1
                  last_rollback := 0 }
  else
    (rollback w w.rollback_penalty).bind rebuildQueue

/-! ### Concrete scenario for claims C1, C8 and C9

A four by one grid over a symmetric catalogue of eight tiles: each cell x
holds the pair of tiles Ax (id 2x) and Bx (id 2x + 1); Ax admits A(x+1) to its
right and A(x-1) to its left, every Bx admits nothing anywhere.  With seed 2
the first observation collapses cell 1 to B2, which contradicts cell 2,
triggers the conflict driven rollback, and the rebuilt queue then lets cell 0
tick to a single prototype while both its neighbours are still at base
entropy, so tick_cell pushes the same cell both as Implicit and as Explicit. -/

def mkTile (i : Nat) (r l : List Nat) : Tile :=
  ⟨i, 1, ⟨[], r, [], l⟩⟩

def tA1 : Tile := mkTile 0 [2] []
def tB1 : Tile := mkTile 1 [] []
def tA2 : Tile := mkTile 2 [4] [0]
def tB2 : Tile := mkTile 3 [] []
def tA3 : Tile := mkTile 4 [6] [2]
def tB3 : Tile := mkTile 5 [] []
def tA4 : Tile := mkTile 6 [] [4]
def tB4 : Tile := mkTile 7 [] []

def grid0 : Grid SuperState :=
  ⟨4, 1,
   [SuperState.new [tA1, tB1], SuperState.new [tA2, tB2],
    SuperState.new [tA3, tB3], SuperState.new [tA4, tB4]]⟩

def wave0 : Wave := Wave.new grid0 2

/-- The state after two tick_once steps: one observation and one contradiction
with its rollback. -/
def waveAfter2 : Wave := ((runN 2 wave0).map Prod.fst).getD wave0

/-- The state after five tick_once steps: done has just become true while cell
three is still at entropy two. -/
def waveAfter5 : Wave := ((runN 5 wave0).map Prod.fst).getD wave0

/-- The state after six tick_once steps: the collapse stack now has five
entries on a four cell grid. -/
def waveAfter6 : Wave := ((runN 6 wave0).map Prod.fst).getD wave0

/-! ### Concrete scenario for claim C3: a one by one grid with two free tiles. -/

def tFree0 : Tile := ⟨0, 1, ⟨[], [], [], []⟩⟩
def tFree1 : Tile := ⟨1, 1, ⟨[], [], [], []⟩⟩
def tFree2 : Tile := ⟨2, 1, ⟨[], [], [], []⟩⟩

def gridC3 : Grid SuperState := ⟨1, 1, [SuperState.new [tFree0, tFree1]]⟩

def waveC3 : Wave := Wave.new gridC3 0

/-- The state after the single observation that completes the run. -/
def waveC3done : Wave := ((runN 1 waveC3).map Prod.fst).getD waveC3

/-! ### Concrete scenario for claim C5: cell 0 is an isolated contradiction
(entropy zero), cell 1 is collapsed, cell 2 is unobserved at entropy two. -/

def gridC5 : Grid SuperState :=
  ⟨3, 1,
   [SuperState.new [], SuperState.new [tFree0],
    SuperState.new [tFree1, tFree2]]⟩

def waveC5 : Wave := Wave.new gridC5 0

/-! ### Concrete scenario for claim C6: a contradiction at cell 2 whose
nearest Explicit culprit is cell 1, with an older Explicit entry at cell 0 and
backoff state last_rollback five, penalty one half. -/

def baseC6 : SuperState := SuperState.new [tFree0, tFree1]

def waveC6 : Wave :=
  { grid := ⟨4, 1,
      [⟨[tFree0], 2, 1⟩, ⟨[tFree1], 2, 1⟩, ⟨[], 2, 0⟩, ⟨[tFree0, tFree1], 2, 2⟩]⟩
    grid_base := ⟨4, 1, [baseC6, baseC6, baseC6, baseC6]⟩
    stack := []
    data := ⟨4, 1, [none, none, none, none]⟩
    collapsed :=
      [((2, 0), Reason.implicitR), ((1, 0), Reason.explicitR),
       ((0, 0), Reason.explicitR)]
    rng := 0
    last_rollback := 5
    rollback_penalty := 1 }

/-! ### Concrete grid for claim C7. -/

def gridC7 : Grid Nat := ⟨2, 2, [10, 11, 12, 13]⟩

/-- A concrete successful mark call, used to exercise the preservation parts
of the claim C8 theorem. -/
def markedC8 : Option Wave := mark (Wave.new gridC5 0) 2 0

/-- The intermediate states of the concrete conflict driven rollback on the
claim C6 scenario. -/
def waveC6r1 : Wave := (rollback waveC6 1).getD waveC6

def waveC6r2 : Wave := (rebuildQueue waveC6r1).getD waveC6

/-! ## Theorems -/

/-- Lemma: a stored list element belongs to the list. -/
theorem get?_mem_of_eq {α : Type} {l : List α} {i : Nat} {a : α}
    (h : l.get? i = some a) : a ∈ l :=
  List.get?_mem h

/-- Lemma: when every cell of the grid is at entropy at most one, the map_or
read of maybe_collapse is at most one at every position. -/
theorem cellEntropy_le_one_of_all (w : Wave)
    (h : w.grid.data.all (fun c => decide (c.entropy ≤ 1)) = true) :
    ∀ p : Pos, cellEntropy w p ≤ 1 := by
  intro p
  unfold cellEntropy
  cases hg : w.grid.get p.1 p.2 with
  | none => exact Nat.le_refl 1
  | some c =>
    have hc : c ∈ w.grid.data := List.get?_mem hg
    have := (List.all_eq_true.mp h) c hc
    exact of_decide_eq_true this

/-- Lemma: the candidate scan skips every cell at entropy at most one. -/
theorem scanCands_skip_all (w : Wave) :
    ∀ (l : List Pos) (minE : Nat) (cands : List Pos),
    (∀ p ∈ l, cellEntropy w p ≤ 1) →
    scanCands w l minE cands = (minE, cands) := by
  intro l
  induction l with
  | nil => intro minE cands _; rfl
  | cons p rest ih =>
    intro minE cands h
    have hp : cellEntropy w p ≤ 1 := h p (List.mem_cons_self p rest)
    have hr : ∀ q ∈ rest, cellEntropy w q ≤ 1 :=
      fun q hq => h q (List.mem_cons_of_mem p hq)
    simp only [scanCands, if_pos hp]
    exact ih minE cands hr

/-- Lemma: once the candidate accumulator is non empty it stays non empty. -/
theorem scanCands_ne_nil (w : Wave) :
    ∀ (l : List Pos) (minE : Nat) (cands : List Pos),
    cands ≠ [] → (scanCands w l minE cands).2 ≠ [] := by
  intro l
  induction l with
  | nil => intro minE cands h; exact h
  | cons p rest ih =>
    intro minE cands h
    simp only [scanCands]
    by_cases h1 : cellEntropy w p ≤ 1
    · simp only [if_pos h1]; exact ih minE cands h
    · simp only [if_neg h1]
      by_cases h2 : cellEntropy w p < minE
      · simp only [if_pos h2]; exact ih _ _ (by simp)
      · simp only [if_neg h2]
        by_cases h3 : cellEntropy w p = minE
        · simp only [if_pos h3]
          exact ih _ _ (by simp)
        · simp only [if_neg h3]; exact ih minE cands h

/-- Lemma: an empty scan result means the accumulator was empty and every
scanned cell was either at entropy at most one or above the running minimum. -/
theorem scanCands_empty (w : Wave) :
    ∀ (l : List Pos) (minE : Nat) (cands : List Pos),
    (scanCands w l minE cands).2 = [] →
    cands = [] ∧ ∀ p ∈ l, cellEntropy w p ≤ 1 ∨ minE < cellEntropy w p := by
  intro l
  induction l with
  | nil =>
    intro minE cands h
    exact ⟨h, by intro p hp; cases hp⟩
  | cons p rest ih =>
    intro minE cands h
    simp only [scanCands] at h
    by_cases h1 : cellEntropy w p ≤ 1
    · simp only [if_pos h1] at h
      obtain ⟨hc, hall⟩ := ih minE cands h
      refine ⟨hc, ?_⟩
      intro q hq
      rcases List.mem_cons.mp hq with hq | hq
      · subst hq; exact Or.inl h1
      · exact hall q hq
    · simp only [if_neg h1] at h
      by_cases h2 : cellEntropy w p < minE
      · simp only [if_pos h2] at h
        exact absurd h (scanCands_ne_nil w rest _ _ (by simp))
      · simp only [if_neg h2] at h
        by_cases h3 : cellEntropy w p = minE
        · simp only [if_pos h3] at h
          exact absurd h (scanCands_ne_nil w rest _ _ (by simp))
        · simp only [if_neg h3] at h
          obtain ⟨hc, hall⟩ := ih minE cands h
          refine ⟨hc, ?_⟩
          intro q hq
          rcases List.mem_cons.mp hq with hq | hq
          · subst hq
            exact Or.inr (Nat.lt_of_le_of_ne (Nat.le_of_not_lt h2) (fun e => h3 e.symm))
          · exact hall q hq

/-- Lemma: the scan invariant: the reported minimum only decreases, every
reported candidate is a scanned or carried cell achieving it above entropy
one, and the reported minimum bounds every scanned cell of entropy above
one. -/
theorem scanCands_invariant (w : Wave) :
    ∀ (l : List Pos) (minE : Nat) (cands : List Pos),
    (∀ c ∈ cands, cellEntropy w c = minE ∧ 1 < cellEntropy w c) →
    (scanCands w l minE cands).1 ≤ minE
    ∧ (∀ c ∈ (scanCands w l minE cands).2,
        cellEntropy w c = (scanCands w l minE cands).1
        ∧ 1 < cellEntropy w c ∧ (c ∈ cands ∨ c ∈ l))
    ∧ (∀ q ∈ l, 1 < cellEntropy w q →
        (scanCands w l minE cands).1 ≤ cellEntropy w q) := by
  intro l
  induction l with
  | nil =>
    intro minE cands h
    refine ⟨Nat.le_refl _, ?_, ?_⟩
    · intro c hc
      exact ⟨(h c hc).1, (h c hc).2, Or.inl hc⟩
    · intro q hq; cases hq
  | cons p rest ih =>
    intro minE cands h
    simp only [scanCands]
    by_cases h1 : cellEntropy w p ≤ 1
    · simp only [if_pos h1]
      obtain ⟨ha, hb, hc⟩ := ih minE cands h
      refine ⟨ha, ?_, ?_⟩
      · intro c hcc
        obtain ⟨x, y, z⟩ := hb c hcc
        exact ⟨x, y, z.imp id (List.mem_cons_of_mem p)⟩
      · intro q hq hq1
        rcases List.mem_cons.mp hq with hq | hq
        · subst hq; exact absurd hq1 (Nat.not_lt.mpr h1)
        · exact hc q hq hq1
    · simp only [if_neg h1]
      have hp1 : 1 < cellEntropy w p := Nat.lt_of_not_le h1
      by_cases h2 : cellEntropy w p < minE
      · simp only [if_pos h2]
        have hstart : ∀ c ∈ [p],
            cellEntropy w c = cellEntropy w p ∧ 1 < cellEntropy w c := by
          intro c hcc
          rcases List.mem_singleton.mp hcc with rfl
          exact ⟨rfl, hp1⟩
        obtain ⟨ha, hb, hc⟩ := ih (cellEntropy w p) [p] hstart
        refine ⟨Nat.le_of_lt (Nat.lt_of_le_of_lt ha h2), ?_, ?_⟩
        · intro c hcc
          obtain ⟨x, y, z⟩ := hb c hcc
          refine ⟨x, y, Or.inr ?_⟩
          rcases z with z | z
          · rw [List.mem_singleton.mp z]
            exact List.mem_cons_self p rest
          · exact List.mem_cons_of_mem p z
        · intro q hq hq1
          rcases List.mem_cons.mp hq with hq | hq
          · subst hq; exact ha
          · exact hc q hq hq1
      · simp only [if_neg h2]
        by_cases h3 : cellEntropy w p = minE
        · simp only [if_pos h3]
          have hstart : ∀ c ∈ cands ++ [p],
              cellEntropy w c = minE ∧ 1 < cellEntropy w c := by
            intro c hcc
            rcases List.mem_append.mp hcc with hcc | hcc
            · exact h c hcc
            · rcases List.mem_singleton.mp hcc with rfl
              exact ⟨h3, hp1⟩
          obtain ⟨ha, hb, hc⟩ := ih minE (cands ++ [p]) hstart
          refine ⟨ha, ?_, ?_⟩
          · intro c hcc
            obtain ⟨x, y, z⟩ := hb c hcc
            refine ⟨x, y, ?_⟩
            rcases z with z | z
            · rcases List.mem_append.mp z with z | z
              · exact Or.inl z
              · rw [List.mem_singleton.mp z]
                exact Or.inr (List.mem_cons_self p rest)
            · exact Or.inr (List.mem_cons_of_mem p z)
          · intro q hq hq1
            rcases List.mem_cons.mp hq with hq | hq
            · subst hq; rw [h3]; exact ha
            · exact hc q hq hq1
        · simp only [if_neg h3]
          obtain ⟨ha, hb, hc⟩ := ih minE cands h
          refine ⟨ha, ?_, ?_⟩
          · intro c hcc
            obtain ⟨x, y, z⟩ := hb c hcc
            exact ⟨x, y, z.imp id (List.mem_cons_of_mem p)⟩
          · intro q hq hq1
            rcases List.mem_cons.mp hq with hq | hq
            · subst hq
              have : minE < cellEntropy w q :=
                Nat.lt_of_le_of_ne (Nat.le_of_not_lt h2) (fun e => h3 e.symm)
              exact Nat.le_of_lt (Nat.lt_of_le_of_lt ha this)
            · exact hc q hq hq1

/-- Lemma: when every cell is at entropy at most one, maybe_collapse finds
nothing and leaves the state untouched. -/
theorem maybeCollapse_all_collapsed (w : Wave)
    (h : ∀ p : Pos, cellEntropy w p ≤ 1) :
    maybeCollapse w = some (none, w) := by
  unfold maybeCollapse
  cases hA : (collapsableAreas w).head? with
  | none => rfl
  | some first =>
    show maybeCollapseScan w first = some (none, w)
    unfold maybeCollapseScan
    rw [scanCands_skip_all w first usizeMax [] (fun p _ => h p)]

/-- C1.  Local consistency at completion fails on the code: in the reachable
state after five tick_once steps of the four cell scenario (a symmetric
catalogue), done() already returns true, yet cell (3, 0) still has entropy
two and collapsed() returns none for it, because tick_cell had pushed cell
(0, 0) onto the collapse stack twice (once Implicit, once Explicit through
the eager collapse branch).  The code thus contradicts its own completion
accounting; the claim states the clear intent. -/
theorem wfc_c1_done_with_uncollapsed_cell :
    (runN 5 wave0).isSome = true
    ∧ waveAfter5.done = true
    ∧ cellEntropy waveAfter5 (3, 0) = 2
    ∧ (waveAfter5.grid.get 3 0).map SuperState.collapsedTile = some none
    ∧ (waveAfter5.collapsed.filter fun e => decide (e.1 = ((0, 0) : Pos))).length
        = 2 := by
  decide

/-- C2.  Determinism: the whole embedded solver is a pure function of the
catalogue carrying grid, the seed and the step count, so two runs on equal
inputs return equal position sequences and equal final states. -/
theorem wfc_c2_determinism (n : Nat) (g1 g2 : Grid SuperState) (s1 s2 : Nat)
    (hg : g1 = g2) (hs : s1 = s2) :
    runN n (Wave.new g1 s1) = runN n (Wave.new g2 s2) := by
  subst hg; subst hs; rfl

theorem wfc_c2_determinism_witness :
    runN 3 (Wave.new grid0 2) = runN 3 (Wave.new grid0 2) :=
  wfc_c2_determinism 3 grid0 grid0 2 2 rfl rfl

/-- C3, counterexample.  In the completed one cell run, done() holds and the
queue is empty, yet tick() returns true (worked or maybe_collapse().is_none())
while the claim demands false; the call is still a no-op on the state. -/
theorem wfc_c3_counterexample :
    (runN 1 waveC3).isSome = true
    ∧ waveC3done.done = true
    ∧ waveC3done.stack = []
    ∧ tickLoop 9 waveC3done false = some (true, waveC3done) := by
  decide

/-- C5, counterexample.  On a reachable initial state whose smallest area is
an isolated contradiction cell, maybe_collapse returns none although cell
(2, 0) still has entropy two, refuting the claimed equivalence with every
cell being at entropy at most one. -/
theorem wfc_c5_counterexample :
    maybeCollapse waveC5 = some (none, waveC5)
    ∧ cellEntropy waveC5 (2, 0) = 2 := by
  decide

/-- C6, counterexample.  On a concrete contradiction state the code first
performs the conflict driven rollback to the nearby Explicit culprit and only
then updates the backoff state, so its result differs from the procedure the
claim describes (backoff update first, then penalty driven reset or
rollback): the code leaves the oldest Explicit entry on the collapse stack,
the claimed procedure pops it too. -/
theorem wfc_c6_counterexample :
    smartRollbackWithContradiction waveC6 (2, 0) ≠ claimedSmartRollback waveC6 (2, 0) := by
  decide

/-- C7, counterexample.  Grid::get only checks the linear index, so the out
of range position (2, 0) of a two by two grid aliases the row major cell of
index two instead of returning none as claimed. -/
theorem wfc_c7_counterexample :
    gridC7.width ≤ 2 ∧ Grid.get gridC7 2 0 = some 12 := by
  decide

/-- C8, counterexample.  After the second tick_once step of the four cell
scenario the contradiction handler has rebuilt the queue: every position is
queued while every pending entry is None, so the claimed equivalence between
queue membership and a present pending entry fails in a reachable state
produced by the rollback branch. -/
theorem wfc_c8_counterexample :
    (runN 2 wave0).isSome = true
    ∧ claimInvB waveAfter2 = false
    ∧ waveAfter2.stack = [(0, 0), (1, 0), (2, 0), (3, 0)]
    ∧ waveAfter2.data.get 0 0 = some none := by
  decide

/-- C9.  The collapse stack is not bounded by the grid size: after six
tick_once steps of the four cell scenario the stack holds five entries, the
position (0, 0) twice, so remaining() underflows (a panic of the Rust usize
subtraction in debug builds, a wrap in release builds). -/
theorem wfc_c9_collapsed_stack_overflow :
    (runN 6 wave0).isSome = true
    ∧ waveAfter6.collapsed.length = 5
    ∧ waveAfter6.grid.size = 4
    ∧ (waveAfter6.collapsed.filter fun e => decide (e.1 = ((0, 0) : Pos))).length
        = 2 := by
  decide

/-- C7, amended.  Grid bounds behaviour as the code implements it: set is
coordinate checked, while get, the write through get_mut, and replace are
only index checked, so they succeed exactly when the linear row major index
is inside the backing vector; in range positions reach the row major cell. -/
theorem wfc_c7_amended {α : Type} (g : Grid α) (x y : Nat) (v : α)
    (hwf : g.data.length = g.width * g.height) :
    (g.width ≤ x ∨ g.height ≤ y → Grid.set g x y v = none)
    ∧ (x < g.width → y < g.height →
        x + y * g.width < g.data.length
        ∧ Grid.set g x y v =
            some { g with data := g.data.set (x + y * g.width) v }
        ∧ Grid.get g x y = g.data.get? (x + y * g.width))
    ∧ (Grid.get g x y = none ↔ g.data.length ≤ x + y * g.width)
    ∧ (Grid.setIdx g x y v = none ↔ g.data.length ≤ x + y * g.width)
    ∧ (Grid.replace g x y v = none ↔ g.data.length ≤ x + y * g.width) := by
  refine ⟨?_, ?_, ?_, ?_, ?_⟩
  · intro h
    unfold Grid.set
    rw [if_pos h]
  · intro hx hy
    have hidx : x + y * g.width < g.data.length := by
      rw [hwf]
      calc x + y * g.width < g.width + y * g.width := by
            exact Nat.add_lt_add_right hx _
        _ = (y + 1) * g.width := by ring
        _ ≤ g.height * g.width := Nat.mul_le_mul_right _ (Nat.succ_le_of_lt hy)
        _ = g.width * g.height := Nat.mul_comm _ _
    refine ⟨hidx, ?_, rfl⟩
    unfold Grid.set
    rw [if_neg]
    push_neg
    exact ⟨hx, hy⟩
  · exact List.get?_eq_none
  · unfold Grid.setIdx
    by_cases h : x + y * g.width < g.data.length
    · rw [if_pos h]
      simp [Nat.not_le.mpr h]
    · rw [if_neg h]
      simp [Nat.le_of_not_lt h]
  · unfold Grid.replace
    cases hg : g.data.get? (x + y * g.width) with
    | none =>
      simp only []
      have := List.get?_eq_none.mp hg
      simp [this]
    | some a =>
      simp only []
      constructor
      · intro h; cases h
      · intro h
        have : g.data.get? (x + y * g.width) = none := List.get?_eq_none.mpr h
        rw [hg] at this
        cases this

theorem wfc_c7_amended_witness :
    Grid.set gridC7 2 0 (99 : Nat) = none := by
  have h := wfc_c7_amended gridC7 2 0 (99 : Nat) (by decide)
  exact h.1 (Or.inl (by decide))

/-- Lemma: membership in the stable insertion by id. -/
theorem mem_insertById (a t : Tile) :
    ∀ l : List Tile, a ∈ insertById t l ↔ a = t ∨ a ∈ l := by
  intro l
  induction l with
  | nil => simp [insertById]
  | cons u us ih =>
    unfold insertById
    by_cases h : t.id ≤ u.id
    · rw [if_pos h]
      simp [List.mem_cons]
    · rw [if_neg h]
      simp only [List.mem_cons, ih]
      tauto

/-- Lemma: the stable sort by id preserves membership. -/
theorem mem_sortById (a : Tile) :
    ∀ l : List Tile, a ∈ sortById l ↔ a ∈ l := by
  intro l
  induction l with
  | nil => simp [sortById]
  | cons u us ih =>
    show a ∈ insertById u (sortById us) ↔ _
    rw [mem_insertById, ih]
    simp [List.mem_cons]

/-- Lemma: the stable insertion adds one element. -/
theorem length_insertById (t : Tile) :
    ∀ l : List Tile, (insertById t l).length = l.length + 1 := by
  intro l
  induction l with
  | nil => rfl
  | cons u us ih =>
    unfold insertById
    by_cases h : t.id ≤ u.id
    · rw [if_pos h]; rfl
    · rw [if_neg h]
      simp [List.length_cons, ih]

/-- Lemma: the stable sort by id preserves length. -/
theorem length_sortById :
    ∀ l : List Tile, (sortById l).length = l.length := by
  intro l
  induction l with
  | nil => rfl
  | cons u us ih =>
    show (insertById u (sortById us)).length = _
    rw [length_insertById, ih, List.length_cons]

/-- Lemma: a weight offset below the total lands on some element. -/
theorem pickWeighted_mem :
    ∀ (l : List Tile) (k : Nat), k < (l.map Tile.weight).sum →
      ∃ t ∈ l, pickWeighted l k = some t := by
  intro l
  induction l with
  | nil =>
    intro k h
    simp at h
  | cons u us ih =>
    intro k h
    unfold pickWeighted
    by_cases hk : k < u.weight
    · rw [if_pos hk]
      exact ⟨u, List.mem_cons_self u us, rfl⟩
    · rw [if_neg hk]
      have hk2 : k - u.weight < (us.map Tile.weight).sum := by
        simp only [List.map_cons, List.sum_cons] at h
        omega
      obtain ⟨t, ht, he⟩ := ih (k - u.weight) hk2
      exact ⟨t, List.mem_cons_of_mem u ht, he⟩

/-- Lemma: a non empty list of positive weights has a positive total. -/
theorem sum_weights_pos (l : List Tile) (hne : l ≠ [])
    (hw : ∀ t ∈ l, 1 ≤ t.weight) : 0 < (l.map Tile.weight).sum := by
  cases l with
  | nil => exact absurd rfl hne
  | cons u us =>
    simp only [List.map_cons, List.sum_cons]
    have := hw u (List.mem_cons_self u us)
    omega

/-- C10.  SuperState::collapse is a no-op consuming no randomness at entropy
at most one (its guard is the possible length, which equals the cached
entropy in every coherent state), and with entropy above one and all weights
positive the weighted choice cannot fail and the result keeps exactly one of
the original prototypes. -/
theorem wfc_c10_collapse_total (s : SuperState) (r : Nat)
    (hcoh : s.entropy = s.possible.length) :
    (s.entropy ≤ 1 → SuperState.collapse s r = some (s, r))
    ∧ (1 < s.entropy → (∀ t ∈ s.possible, 1 ≤ t.weight) →
        ∃ t r2, t ∈ s.possible ∧
          SuperState.collapse s r = some (⟨[t], s.base_entropy, 1⟩, r2)) := by
  constructor
  · intro h
    unfold SuperState.collapse
    rw [if_neg]
    omega
  · intro h hw
    have hlen : 1 < s.possible.length := by omega
    unfold SuperState.collapse
    rw [if_pos hlen]
    have hne : sortById s.possible ≠ [] := by
      intro he
      have := length_sortById s.possible
      rw [he] at this
      simp at this
      omega
    have hwall : ∀ t ∈ sortById s.possible, 1 ≤ t.weight := by
      intro t ht
      exact hw t ((mem_sortById t s.possible).mp ht)
    have hpos : 0 < ((sortById s.possible).map Tile.weight).sum :=
      sum_weights_pos _ hne hwall
    unfold chooseWeighted
    rw [if_neg (Nat.pos_iff_ne_zero.mp hpos)]
    have hk : (rngNext r).1 % ((sortById s.possible).map Tile.weight).sum
        < ((sortById s.possible).map Tile.weight).sum :=
      Nat.mod_lt _ hpos
    obtain ⟨t, ht, he⟩ := pickWeighted_mem (sortById s.possible) _ hk
    refine ⟨t, (rngNext r).2, (mem_sortById t s.possible).mp ht, ?_⟩
    rw [he]
    rfl

theorem wfc_c10_collapse_total_witness :
    SuperState.collapse (SuperState.new [tFree0]) 7
        = some (SuperState.new [tFree0], 7)
    ∧ ∃ t r2, t ∈ [tFree0, tFree1] ∧
        SuperState.collapse (SuperState.new [tFree0, tFree1]) 7
          = some (⟨[t], (SuperState.new [tFree0, tFree1]).base_entropy, 1⟩, r2) :=
  ⟨(wfc_c10_collapse_total (SuperState.new [tFree0]) 7 rfl).1 (by decide),
   (wfc_c10_collapse_total (SuperState.new [tFree0, tFree1]) 7 rfl).2
     (by decide) (by decide)⟩

/-- Lemma: a non empty intersection read in either direction. -/
theorem any_contains_comm (l1 l2 : List Nat) :
    (l1.any fun i => l2.contains i) = (l2.any fun i => l1.contains i) := by
  cases h1 : l1.any fun i => l2.contains i with
  | true =>
    obtain ⟨x, hx, hx2⟩ := List.any_eq_true.mp h1
    exact (List.any_eq_true.mpr
      ⟨x, List.elem_iff.mp hx2, List.elem_iff.mpr hx⟩).symm
  | false =>
    cases h2 : l2.any fun i => l1.contains i with
    | false => rfl
    | true =>
      obtain ⟨x, hx, hx2⟩ := List.any_eq_true.mp h2
      have : l1.any (fun i => l2.contains i) = true :=
        List.any_eq_true.mpr ⟨x, List.elem_iff.mp hx2, List.elem_iff.mpr hx⟩
      rw [h1] at this
      cases this

/-- Lemma: Tile::test coincides with the retention predicate stated by the
specification. -/
theorem test_eq_specRetain (t : Tile) (nbrs : Nbrs (List Nat)) :
    Tile.test t nbrs = specRetain t nbrs := by
  unfold Tile.test specRetain directions
  simp only [List.all_cons, List.all_nil]
  rw [any_contains_comm (nbrs.get Direction.up) (t.neighbors.get Direction.up),
      any_contains_comm (nbrs.get Direction.right) (t.neighbors.get Direction.right),
      any_contains_comm (nbrs.get Direction.down) (t.neighbors.get Direction.down),
      any_contains_comm (nbrs.get Direction.left) (t.neighbors.get Direction.left)]

/-- C4.  SuperState::tick retention semantics: at entropy above one the
possible list becomes exactly the order preserving filter by the claimed
retention predicate (non empty constraint directions must meet the own
neighbour set), the cached entropy becomes its length, and at entropy at
most one the state is unchanged. -/
theorem wfc_c4_tick_retention (s : SuperState) (nbrs : Nbrs (List Nat)) :
    SuperState.tick s nbrs =
      if s.entropy ≤ 1 then s
      else
        ⟨s.possible.filter fun t => specRetain t nbrs, s.base_entropy,
         (s.possible.filter fun t => specRetain t nbrs).length⟩ := by
  unfold SuperState.tick
  by_cases h : 1 < s.entropy
  · rw [if_pos h, if_neg (by omega)]
    have hf : (s.possible.filter fun t => t.test nbrs)
        = s.possible.filter fun t => specRetain t nbrs := by
      apply List.filter_congr
      intro t _
      exact test_eq_specRetain t nbrs
    simp only [hf]
  · rw [if_neg h, if_pos (by omega)]

/-- C6, amended.  What the contradiction handler actually does when a nearby
Explicit culprit exists: it rolls back by the number of Explicit entries from
the top of the collapse stack through the culprit (the penalty is not
consulted), rebuilds the queue, and only afterwards updates the backoff
counters from the progress measured on entry. -/
theorem wfc_c6_amended (w : Wave) (pos culprit : Pos) (k : Nat) (w1 w2 : Wave)
    (h1 : analyzeContradiction w pos = some culprit)
    (h2 : countToCulprit w.collapsed culprit 0 = some k)
    (h3 : rollback w k = some w1)
    (h4 : rebuildQueue w1 = some w2) :
    smartRollbackWithContradiction w pos
      = some (backoffUpdate (w.grid.size - w.remaining) w2) := by
  unfold smartRollbackWithContradiction conflictDrivenRollback
  rw [h1]
  show Option.map (backoffUpdate (w.grid.size - w.remaining))
      ((match countToCulprit w.collapsed culprit 0 with
        | some cnt => rollback w cnt
        | none => smartRollback w).bind rebuildQueue)
    = some (backoffUpdate (w.grid.size - w.remaining) w2)
  rw [h2]
  show Option.map (backoffUpdate (w.grid.size - w.remaining))
      ((rollback w k).bind rebuildQueue)
    = some (backoffUpdate (w.grid.size - w.remaining) w2)
  rw [h3]
  show Option.map (backoffUpdate (w.grid.size - w.remaining)) (rebuildQueue w1)
    = some (backoffUpdate (w.grid.size - w.remaining) w2)
  rw [h4]
  rfl

theorem wfc_c6_amended_witness :
    smartRollbackWithContradiction waveC6 (2, 0)
      = some (backoffUpdate (waveC6.grid.size - waveC6.remaining) waveC6r2) :=
  wfc_c6_amended waveC6 (2, 0) (1, 0) 1 waveC6r1 waveC6r2
    (by decide) (by decide) (by decide) (by decide)

/-- Lemma: once the drain loop of tick has processed a cell, a successful
return value is always true. -/
theorem tickLoop_worked :
    ∀ (fuel : Nat) (w : Wave) (b : Bool) (w2 : Wave),
    tickLoop fuel w true = some (b, w2) → b = true := by
  intro fuel
  induction fuel with
  | zero =>
    intro w b w2 h
    cases h
  | succ f ih =>
    intro w b w2 h
    unfold tickLoop at h
    cases hst : w.stack with
    | nil =>
      rw [hst] at h
      have h2 : (some (true, w) : Option (Bool × Wave)) = some (b, w2) := h
      have h3 := Option.some.inj h2
      exact congrArg Prod.fst h3.symm
    | cons p rest =>
      rw [hst] at h
      have h4 : (tickCell { w with stack := rest } p.1 p.2).bind
          (fun w3 => tickLoop f w3 true) = some (b, w2) := h
      cases hc : tickCell { w with stack := rest } p.1 p.2 with
      | none => rw [hc] at h4; cases h4
      | some w3 =>
        rw [hc] at h4
        exact ih w3 b w2 h4

/-- C3, amended.  With an empty queue, tick performs one observation attempt
and returns true exactly when the attempt found nothing to collapse; with a
non empty queue a terminating tick always returns true; and once every cell
is at entropy at most one and the queue is empty, tick is a no-op on the
state that returns true, not false. -/
theorem wfc_c3_amended :
    (∀ (fuel : Nat) (w : Wave), w.stack = [] →
        tickLoop (fuel + 1) w false
          = (maybeCollapse w).map fun r => (r.1.isNone, r.2))
    ∧ (∀ (fuel : Nat) (w : Wave) (b : Bool) (w2 : Wave), w.stack ≠ [] →
        tickLoop fuel w false = some (b, w2) → b = true)
    ∧ (∀ (fuel : Nat) (w : Wave), w.stack = [] →
        (∀ p : Pos, cellEntropy w p ≤ 1) →
        tickLoop (fuel + 1) w false = some (true, w)) := by
  refine ⟨?_, ?_, ?_⟩
  · intro fuel w hst
    unfold tickLoop
    rw [hst]
    rfl
  · intro fuel w b w2 hne h
    cases fuel with
    | zero => cases h
    | succ f =>
      unfold tickLoop at h
      cases hst : w.stack with
      | nil => exact absurd hst hne
      | cons p rest =>
        rw [hst] at h
        have h4 : (tickCell { w with stack := rest } p.1 p.2).bind
            (fun w3 => tickLoop f w3 true) = some (b, w2) := h
        cases hc : tickCell { w with stack := rest } p.1 p.2 with
        | none => rw [hc] at h4; cases h4
        | some w3 =>
          rw [hc] at h4
          exact tickLoop_worked f w3 b w2 h4
  · intro fuel w hst hall
    unfold tickLoop
    rw [hst, maybeCollapse_all_collapsed w hall]
    rfl

theorem wfc_c3_amended_witness :
    tickLoop 9 waveC3done false = some (true, waveC3done) :=
  wfc_c3_amended.2.2 8 waveC3done (by decide)
    (cellEntropy_le_one_of_all waveC3done (by decide))

/-- Lemma: maybe_collapse with no collapsable area finds nothing. -/
theorem maybeCollapse_of_nil (w : Wave) (hA : collapsableAreas w = []) :
    maybeCollapse w = some (none, w) := by
  unfold maybeCollapse
  rw [hA]
  rfl

/-- Lemma: maybe_collapse reduces to the scan of the first area. -/
theorem maybeCollapse_of_cons (w : Wave) (first : List Pos)
    (rest : List (List Pos)) (hA : collapsableAreas w = first :: rest) :
    maybeCollapse w = maybeCollapseScan w first := by
  unfold maybeCollapse
  rw [hA]
  rfl

/-- Lemma: the scan body with an empty candidate list finds nothing. -/
theorem maybeCollapseScan_nil (w : Wave) (first : List Pos) (minE : Nat)
    (hS : scanCands w first usizeMax [] = (minE, [])) :
    maybeCollapseScan w first = some (none, w) := by
  unfold maybeCollapseScan
  rw [hS]

/-- Lemma: the scan body with candidates draws one of them and collapses it. -/
theorem maybeCollapseScan_some (w : Wave) (first : List Pos) (minE : Nat)
    (c p : Pos) (cs : List Pos)
    (hS : scanCands w first usizeMax [] = (minE, c :: cs))
    (hG : (c :: cs).get? ((rngNext w.rng).1 % (c :: cs).length) = some p) :
    maybeCollapseScan w first =
      (collapseCell { w with rng := (rngNext w.rng).2 } p.1 p.2).map fun w2 =>
        (some p, w2) := by
  unfold maybeCollapseScan
  rw [hS]
  show (match (c :: cs).get? ((rngNext w.rng).1 % (c :: cs).length) with
        | none => none
        | some p =>
          (collapseCell { w with rng := (rngNext w.rng).2 } p.1 p.2).map fun w2 =>
            (some p, w2)) = _
  rw [hG]

/-- C5, amended.  maybe_collapse returns none exactly when every cell of the
first collapsable area (the smallest connected component over cells of
entropy other than one; vacuously when there is none) is at entropy at most
one, leaving the state unchanged; otherwise the returned cell lies in that
first area, has entropy above one, and achieves the minimum entropy above one
within the area.  The usize bound hypothesis reflects that Rust entropies are
usize values. -/
theorem wfc_c5_amended (w : Wave)
    (hU : ∀ p ∈ (collapsableAreas w).headD [], cellEntropy w p ≤ usizeMax) :
    (maybeCollapse w = some (none, w) ↔
      ∀ p ∈ (collapsableAreas w).headD [], cellEntropy w p ≤ 1)
    ∧ (∀ (p : Pos) (w2 : Wave), maybeCollapse w = some (some p, w2) →
        p ∈ (collapsableAreas w).headD []
        ∧ 1 < cellEntropy w p
        ∧ ∀ q ∈ (collapsableAreas w).headD [], 1 < cellEntropy w q →
            cellEntropy w p ≤ cellEntropy w q) := by
  cases hA : collapsableAreas w with
  | nil =>
    rw [maybeCollapse_of_nil w hA]
    constructor
    · constructor
      · intro _ p hp
        simp only [List.headD_nil] at hp
        exact absurd hp (List.not_mem_nil p)
      · intro _
        rfl
    · intro p w2 hcc
      exact Option.noConfusion (congrArg Prod.fst (Option.some.inj hcc))
  | cons first rest =>
    rw [hA] at hU
    rw [maybeCollapse_of_cons w first rest hA]
    simp only [List.headD_cons] at hU ⊢
    have hInv := scanCands_invariant w first usizeMax [] (by intro c hc; cases hc)
    cases hS : scanCands w first usizeMax [] with
    | mk minE cands =>
      rw [hS] at hInv
      cases cands with
      | nil =>
        rw [maybeCollapseScan_nil w first minE hS]
        have hEmpty := scanCands_empty w first usizeMax [] (by rw [hS])
        have hall : ∀ p ∈ first, cellEntropy w p ≤ 1 := by
          intro p hp
          rcases hEmpty.2 p hp with h | h
          · exact h
          · exact absurd h (Nat.not_lt.mpr (hU p hp))
        refine ⟨⟨fun _ => hall, fun _ => rfl⟩, ?_⟩
        intro p w2 hcc
        have hcc2 : (some (none, w) : Option (Option Pos × Wave))
            = some (some p, w2) := hcc
        exact Option.noConfusion (congrArg Prod.fst (Option.some.inj hcc2))
      | cons c cs =>
        have hlen : (rngNext w.rng).1 % (c :: cs).length < (c :: cs).length :=
          Nat.mod_lt _ (Nat.succ_pos _)
        cases hG : (c :: cs).get? ((rngNext w.rng).1 % (c :: cs).length) with
        | none =>
          have := List.get?_eq_none.mp hG
          omega
        | some p =>
          rw [maybeCollapseScan_some w first minE c p cs hS hG]
          have hpmem : p ∈ c :: cs := List.get?_mem hG
          obtain ⟨hminle, hmem, hmin⟩ := hInv
          obtain ⟨hep, hp1, hpin⟩ := hmem p hpmem
          have hpfirst : p ∈ first := by
            rcases hpin with h | h
            · cases h
            · exact h
          cases hC : collapseCell { w with rng := (rngNext w.rng).2 } p.1 p.2 with
          | none =>
            refine ⟨⟨?_, ?_⟩, ?_⟩
            · intro hcc
              have hcc2 : (none : Option (Option Pos × Wave))
                  = some (none, w) := hcc
              exact Option.noConfusion hcc2
            · intro hall
              exact absurd hp1 (Nat.not_lt.mpr (hall p hpfirst))
            · intro p2 w2 hcc
              have hcc2 : (none : Option (Option Pos × Wave))
                  = some (some p2, w2) := hcc
              exact Option.noConfusion hcc2
          | some w3 =>
            refine ⟨⟨?_, ?_⟩, ?_⟩
            · intro hcc
              have hcc2 : (some (some p, w3) : Option (Option Pos × Wave))
                  = some (none, w) := hcc
              exact Option.noConfusion (congrArg Prod.fst (Option.some.inj hcc2))
            · intro hall
              exact absurd hp1 (Nat.not_lt.mpr (hall p hpfirst))
            · intro p2 w2 hcc
              have hcc2 : (some (some p, w3) : Option (Option Pos × Wave))
                  = some (some p2, w2) := hcc
              have hpp : p = p2 :=
                Option.some.inj (congrArg Prod.fst (Option.some.inj hcc2))
              cases hpp
              refine ⟨hpfirst, hp1, ?_⟩
              intro q hq hq1
              rw [hep]
              exact hmin q hq hq1

theorem wfc_c5_amended_witness :
    maybeCollapse waveC5 = some (none, waveC5) :=
  (wfc_c5_amended waveC5 (by decide)).1.mpr (by decide)

/-- Lemma: a successful coordinate checked write means the coordinates were
proper and the backing cell was replaced. -/
theorem Grid.set_eq_some {α : Type} {g : Grid α} {x y : Nat} {v : α}
    {g2 : Grid α} (h : Grid.set g x y v = some g2) :
    x < g.width ∧ y < g.height
    ∧ g2 = { g with data := g.data.set (x + y * g.width) v } := by
  unfold Grid.set at h
  by_cases hc : g.width ≤ x ∨ g.height ≤ y
  · rw [if_pos hc] at h; cases h
  · rw [if_neg hc] at h
    push_neg at hc
    exact ⟨hc.1, hc.2, (Option.some.inj h).symm⟩

/-- Lemma: a successful index checked write means the index was in range and
the backing cell was replaced. -/
theorem Grid.setIdx_eq_some {α : Type} {g : Grid α} {x y : Nat} {v : α}
    {g2 : Grid α} (h : Grid.setIdx g x y v = some g2) :
    x + y * g.width < g.data.length
    ∧ g2 = { g with data := g.data.set (x + y * g.width) v } := by
  unfold Grid.setIdx at h
  by_cases hc : x + y * g.width < g.data.length
  · rw [if_pos hc] at h
    exact ⟨hc, (Option.some.inj h).symm⟩
  · rw [if_neg hc] at h; cases h

/-- Lemma: positions of a grid are proper and their row major index is below
the grid size. -/
theorem mem_positions {α : Type} (g : Grid α) (p : Pos)
    (hp : p ∈ Grid.positions g) :
    p.1 < g.width ∧ p.2 < g.height
    ∧ p.1 + p.2 * g.width < g.width * g.height := by
  unfold Grid.positions at hp
  obtain ⟨i, hi, he⟩ := List.mem_map.mp hp
  have hir := List.mem_range.mp hi
  have hw : 0 < g.width := by
    rcases Nat.eq_zero_or_pos g.width with h | h
    · rw [h] at hir; simp at hir
    · exact h
  cases he
  refine ⟨Nat.mod_lt _ hw, ?_, ?_⟩
  · refine (Nat.div_lt_iff_lt_mul hw).mpr ?_
    rw [Nat.mul_comm]
    exact hir
  · have heq : i % g.width + i / g.width * g.width = i := by
      rw [Nat.mul_comm]
      exact Nat.mod_add_div i g.width
    simpa [heq] using hir

/-- Lemma: two proper positions with the same row major index coincide. -/
theorem pos_index_inj {wd : Nat} {a b : Pos} (ha : a.1 < wd) (hb : b.1 < wd)
    (h : a.1 + a.2 * wd = b.1 + b.2 * wd) : a = b := by
  have hw : 0 < wd := Nat.lt_of_le_of_lt (Nat.zero_le _) ha
  have h1 : a.1 = b.1 := by
    have e1 : (a.1 + a.2 * wd) % wd = a.1 := by
      rw [Nat.add_mul_mod_self_right]
      exact Nat.mod_eq_of_lt ha
    have e2 : (b.1 + b.2 * wd) % wd = b.1 := by
      rw [Nat.add_mul_mod_self_right]
      exact Nat.mod_eq_of_lt hb
    rw [← e1, ← e2, h]
  have h2 : a.2 = b.2 := by
    rw [h1] at h
    have := Nat.add_left_cancel h
    exact Nat.eq_of_mul_eq_mul_right hw this
  have hpa : a = (a.1, a.2) := rfl
  have hpb : b = (b.1, b.2) := rfl
  rw [hpa, hpb, h1, h2]

/-- Lemma: a record update of the backing vector keeps the position list. -/
theorem positions_data_update {α : Type} (g : Grid α) (l : List α) :
    Grid.positions { g with data := l } = Grid.positions g := rfl

/-- Lemma: the per position coupling read is true whenever the entry is
present and the position queued, or the entry is absent. -/
theorem piqAt_true_of_get (dataG : Grid (Option (Nbrs (List Nat))))
    (stk : List Pos) (p : Pos) (nb : Nbrs (List Nat))
    (h : dataG.get p.1 p.2 = some (some nb)) :
    piqAt dataG stk p = stk.contains p := by
  unfold piqAt
  rw [h]

theorem piqAt_true_of_no_entry (dataG : Grid (Option (Nbrs (List Nat))))
    (stk : List Pos) (p : Pos)
    (h : dataG.get p.1 p.2 = none ∨ dataG.get p.1 p.2 = some none) :
    piqAt dataG stk p = true := by
  unfold piqAt
  rcases h with h | h <;> rw [h]

/-- Lemma: the coupling read only grows true under a queue extension. -/
theorem piqAt_stack_append (dataG : Grid (Option (Nbrs (List Nat))))
    (stk extra : List Pos) (p : Pos) (h : piqAt dataG stk p = true) :
    piqAt dataG (stk ++ extra) p = true := by
  unfold piqAt at h ⊢
  cases hg : dataG.get p.1 p.2 with
  | none => rfl
  | some o =>
    cases o with
    | none => rfl
    | some nb =>
      rw [hg] at h
      exact List.elem_iff.mpr (List.mem_append_left extra (List.elem_iff.mp h))

/-- Lemma: one neighbour update of mark preserves the pending implies queued
coupling. -/
theorem markStep_preserves (states : List Nat) (d : Direction) (q : Pos)
    (w w2 : Wave) (hin : pendingImpliesQueued w = true)
    (h : markStep states d q w = some w2) :
    pendingImpliesQueued w2 = true := by
  have hin2 := List.all_eq_true.mp hin
  unfold markStep at h
  cases hg : w.data.get q.1 q.2 with
  | none => rw [hg] at h; cases h
  | some o =>
    rw [hg] at h
    cases o with
    | none =>
      cases hset : w.data.set q.1 q.2 (some (Nbrs.emptyIds.setD d.invert states)) with
      | none => rw [hset] at h; cases h
      | some dg =>
        rw [hset] at h
        have hw2 : w2 = { w with data := dg, stack := w.stack ++ [q] } :=
          (Option.some.inj h).symm
        obtain ⟨hqx, hqy, hdg⟩ := Grid.set_eq_some hset
        subst hw2
        apply List.all_eq_true.mpr
        intro p hp
        have hp2 : p ∈ Grid.positions w.data := by
          have hp3 : p ∈ Grid.positions dg := hp
          rw [hdg, positions_data_update] at hp3
          exact hp3
        obtain ⟨hpx, hpy, hpidx⟩ := mem_positions w.data p hp2
        show piqAt dg (w.stack ++ [q]) p = true
        by_cases hidx : p.1 + p.2 * w.data.width = q.1 + q.2 * w.data.width
        · have hpq : p = q := pos_index_inj hpx hqx hidx
          unfold piqAt
          cases hv : dg.get p.1 p.2 with
          | none => rfl
          | some o2 =>
            cases o2 with
            | none => rfl
            | some nb =>
              apply List.elem_iff.mpr
              apply List.mem_append_right
              rw [hpq]
              exact List.mem_singleton.mpr rfl
        · have hget : dg.get p.1 p.2 = w.data.get p.1 p.2 := by
            rw [hdg]
            show (w.data.data.set (q.1 + q.2 * w.data.width) _).get?
                (p.1 + p.2 * w.data.width) = w.data.data.get? (p.1 + p.2 * w.data.width)
            exact List.get?_set_ne _ _ (fun e => hidx e.symm)
          cases hv : w.data.get p.1 p.2 with
          | none =>
            exact piqAt_true_of_no_entry dg _ p (Or.inl (hget.trans hv))
          | some o2 =>
            cases o2 with
            | none =>
              exact piqAt_true_of_no_entry dg _ p (Or.inr (hget.trans hv))
            | some nb =>
              rw [piqAt_true_of_get dg _ p nb (hget.trans hv)]
              have hold := hin2 p hp2
              rw [piqAt_true_of_get w.data _ p nb hv] at hold
              exact List.elem_iff.mpr
                (List.mem_append_left [q] (List.elem_iff.mp hold))
    | some m =>
      have h3 : Option.map (fun dg => { w with data := dg })
          (w.data.setIdx q.1 q.2 (some (m.setD d.invert states))) = some w2 := h
      cases hsi : w.data.setIdx q.1 q.2 (some (m.setD d.invert states)) with
      | none => rw [hsi] at h3; cases h3
      | some dg =>
        rw [hsi] at h3
        have h2 : (some { w with data := dg } : Option Wave) = some w2 := h3
        have hw2 : w2 = { w with data := dg } := (Option.some.inj h2).symm
        obtain ⟨hlt, hdg⟩ := Grid.setIdx_eq_some hsi
        subst hw2
        apply List.all_eq_true.mpr
        intro p hp
        have hp2 : p ∈ Grid.positions w.data := by
          have hp3 : p ∈ Grid.positions dg := hp
          rw [hdg, positions_data_update] at hp3
          exact hp3
        show piqAt dg w.stack p = true
        by_cases hidx : p.1 + p.2 * w.data.width = q.1 + q.2 * w.data.width
        · have hold : w.data.get p.1 p.2 = some (some m) := by
            show w.data.data.get? (p.1 + p.2 * w.data.width) = _
            rw [hidx]
            exact hg
          have hmem : w.stack.contains p = true := by
            have := hin2 p hp2
            rw [piqAt_true_of_get w.data _ p m hold] at this
            exact this
          have hnew : dg.get p.1 p.2 = some (some (m.setD d.invert states)) := by
            rw [hdg]
            show (w.data.data.set (q.1 + q.2 * w.data.width) _).get?
                (p.1 + p.2 * w.data.width) = _
            rw [hidx]
            exact List.get?_set_eq_of_lt _ hlt
          rw [piqAt_true_of_get dg _ p _ hnew]
          exact hmem
        · have hget : dg.get p.1 p.2 = w.data.get p.1 p.2 := by
            rw [hdg]
            show (w.data.data.set (q.1 + q.2 * w.data.width) _).get?
                (p.1 + p.2 * w.data.width) = w.data.data.get? (p.1 + p.2 * w.data.width)
            exact List.get?_set_ne _ _ (fun e => hidx e.symm)
          cases hv : w.data.get p.1 p.2 with
          | none =>
            exact piqAt_true_of_no_entry dg _ p (Or.inl (hget.trans hv))
          | some o2 =>
            cases o2 with
            | none =>
              exact piqAt_true_of_no_entry dg _ p (Or.inr (hget.trans hv))
            | some nb =>
              rw [piqAt_true_of_get dg _ p nb (hget.trans hv)]
              have hold := hin2 p hp2
              rw [piqAt_true_of_get w.data _ p nb hv] at hold
              exact hold

/-- Lemma: the neighbour loop of mark preserves the coupling. -/
theorem markGo_preserves (states : List Nat) :
    ∀ (l : List (Direction × Pos)) (w w2 : Wave),
    pendingImpliesQueued w = true → markGo states l w = some w2 →
    pendingImpliesQueued w2 = true := by
  intro l
  induction l with
  | nil =>
    intro w w2 hin h
    have h2 : (some w : Option Wave) = some w2 := h
    rw [← Option.some.inj h2]
    exact hin
  | cons dp rest ih =>
    intro w w2 hin h
    have h2 : (markStep states dp.1 dp.2 w).bind (markGo states rest)
        = some w2 := h
    cases hm : markStep states dp.1 dp.2 w with
    | none => rw [hm] at h2; cases h2
    | some w1 =>
      rw [hm] at h2
      exact ih w1 w2 (markStep_preserves states dp.1 dp.2 w w1 hin hm) h2

/-- Lemma: Wave::mark preserves the coupling. -/
theorem mark_preserves (w : Wave) (cx cy : Nat) (w2 : Wave)
    (hin : pendingImpliesQueued w = true) (h : mark w cx cy = some w2) :
    pendingImpliesQueued w2 = true := by
  unfold mark at h
  cases hg : w.grid.get cx cy with
  | none => rw [hg] at h; cases h
  | some cell =>
    rw [hg] at h
    exact markGo_preserves (possibleIds cell) _ w w2 hin h

/-- Lemma: Wave::collapse preserves the coupling; the superstate collapse,
the grid write and the collapse stack push leave queue and pending untouched,
and the final mark preserves them. -/
theorem collapseCell_preserves (w : Wave) (x y : Nat) (w2 : Wave)
    (hin : pendingImpliesQueued w = true) (h : collapseCell w x y = some w2) :
    pendingImpliesQueued w2 = true := by
  unfold collapseCell at h
  cases hg : w.grid.get x y with
  | none => rw [hg] at h; cases h
  | some cell =>
    rw [hg] at h
    have h3 : (match cell.collapse w.rng with
        | none => none
        | some cr =>
          match w.grid.setIdx x y cr.1 with
          | none => none
          | some g2 =>
            mark
              { w with
                grid := g2
                rng := cr.2
                collapsed := ((x, y), Reason.explicitR) :: w.collapsed } x y)
        = some w2 := h
    cases hc : cell.collapse w.rng with
    | none => rw [hc] at h3; cases h3
    | some cr =>
      rw [hc] at h3
      have h4 : (match w.grid.setIdx x y cr.1 with
          | none => none
          | some g2 =>
            mark
              { w with
                grid := g2
                rng := cr.2
                collapsed := ((x, y), Reason.explicitR) :: w.collapsed } x y)
          = some w2 := h3
      cases hs : w.grid.setIdx x y cr.1 with
      | none => rw [hs] at h4; cases h4
      | some g2 =>
        rw [hs] at h4
        exact mark_preserves
          { w with
            grid := g2
            rng := cr.2
            collapsed := ((x, y), Reason.explicitR) :: w.collapsed } x y w2 hin h4

/-- Lemma: a fresh Wave satisfies the coupling. -/
theorem new_satisfies_piq (g : Grid SuperState) (seed : Nat) :
    pendingImpliesQueued (Wave.new g seed) = true := by
  apply List.all_eq_true.mpr
  intro p _
  apply piqAt_true_of_no_entry
  show (List.replicate (g.width * g.height)
      (none : Option (Nbrs (List Nat)))).get? (p.1 + p.2 * g.width) = none ∨ _
  cases hv : (List.replicate (g.width * g.height)
      (none : Option (Nbrs (List Nat)))).get? (p.1 + p.2 * g.width) with
  | none => exact Or.inl rfl
  | some a =>
    have ha := List.eq_of_mem_replicate (List.get?_mem hv)
    rw [ha] at hv
    exact Or.inr hv

/-- C8, amended.  The pending implies queued direction of the coupling holds
after Wave::new and is preserved by mark and by collapse; the reachable state
counterexample shows the converse direction fails after contradiction
handling. -/
theorem wfc_c8_amended :
    (∀ (g : Grid SuperState) (seed : Nat),
        pendingImpliesQueued (Wave.new g seed) = true)
    ∧ (∀ (w : Wave) (cx cy : Nat) (w2 : Wave),
        pendingImpliesQueued w = true → mark w cx cy = some w2 →
        pendingImpliesQueued w2 = true)
    ∧ (∀ (w : Wave) (x y : Nat) (w2 : Wave),
        pendingImpliesQueued w = true → collapseCell w x y = some w2 →
        pendingImpliesQueued w2 = true) :=
  ⟨new_satisfies_piq,
   fun w cx cy w2 hin h => mark_preserves w cx cy w2 hin h,
   fun w x y w2 hin h => collapseCell_preserves w x y w2 hin h⟩

theorem wfc_c8_amended_witness :
    pendingImpliesQueued (markedC8.getD (Wave.new gridC5 0)) = true := by
  cases hm : markedC8 with
  | none =>
    exact wfc_c8_amended.1 gridC5 0
  | some w2 =>
    have hm2 : mark (Wave.new gridC5 0) 2 0 = some w2 := hm
    exact wfc_c8_amended.2.1 (Wave.new gridC5 0) 2 0 w2
      (wfc_c8_amended.1 gridC5 0) hm2

end WFC
